import Mathlib

/-!
Shallow embedding of the LaTeX-idiom markdown extension of
joanorr/website-builder (src/latexmd.py, duplicated in src/builder.py).

Text is modelled as `List Char`.  Python dictionaries are modelled as
insertion-ordered association lists, element trees as a rose tree
`Elem` mirroring `xml.etree.ElementTree.Element` (tag, attributes in
insertion order, text, children, tail; Python `None` text is `[]`).

The host engine (python-markdown) consults block processors in registry
order (stable sort by descending priority, ties keep registration
order: `thmproc` before `prfproc`, both at 20), parses every block of
the document before any inline pattern runs, and applies inline
patterns pattern-major (a pattern is applied repeatedly across the text
before the next pattern is consulted; replaced spans are stashed as
placeholders and are not re-scanned).  Each `ValueError` raise site of
the source is mapped to the error kind the spec's taxonomy gives it.
-/

namespace LatexMd

/-- The error taxonomy of the spec (section 7); each constructor
corresponds to one ValueError raise site in src/latexmd.py. -/
inductive Err where
  | invalidLabelFormat
  | duplicateLabel
  | multipleLabels
  | unresolvedReference
  | invalidRefFormat
  | proofAlreadyOpen
  | danglingProofEnd
  deriving DecidableEq, Repr

/-- ASCII lowercasing of one character, the fragment of Python
str.lower that the keyword matching exercises. -/
def lowerChar (c : Char) : Char :=
  if 'A' ≤ c ∧ c ≤ 'Z' then Char.ofNat (c.toNat + 32) else c

/-- Python str.lower on the modelled text. -/
def toLowerL (s : List Char) : List Char := s.map lowerChar

/-- Python str.startswith. -/
def startsWithL (s pre : List Char) : Bool := pre.isPrefixOf s

/-- Python str.endswith. -/
def endsWithL (s suf : List Char) : Bool := suf.isSuffixOf s

/-- A character allowed by the label format pattern
r'^[a-zA-Z0-9\-_]+$' character class. -/
def validLabelChar (c : Char) : Bool :=
  ('a' ≤ c ∧ c ≤ 'z') ∨ ('A' ≤ c ∧ c ≤ 'Z') ∨ ('0' ≤ c ∧ c ≤ '9') ∨ c = '-' ∨ c = '_'

/-- A well-formed label name: nonempty, all characters in the class. -/
def validLabelStr (s : List Char) : Bool := s ≠ [] ∧ s.all validLabelChar

/-- Python re.match(r'^[a-zA-Z0-9\-_]+$', s): the dollar anchor also
matches just before one trailing newline, so `core ++ ['\n']` with a
nonempty all-valid core is accepted as well. -/
def reMatchLabelFormat (s : List Char) : Bool :=
  validLabelStr s ∨ validLabelStr (s.dropLast) ∧ s.getLast? = some '\n'

/-- Python whitespace for str.lstrip. -/
def isPySpace (c : Char) : Bool :=
  c = ' ' ∨ c = '\t' ∨ c = '\n' ∨ c = '\r' ∨ c = '\x0b' ∨ c = '\x0c'

/-- Python str.lstrip. -/
def lstripL (s : List Char) : List Char := s.dropWhile isPySpace

/-- Decimal digits of a natural number, for the f-string rendering of
counter values. -/
def natStr (n : Nat) : List Char := Nat.toDigits 10 n

/-- An element of xml.etree.ElementTree: tag, attributes in insertion
order (element.set), text, child elements, and tail text.  Python's
None text/tail is modelled as the empty list. -/
inductive Elem where
  | mk (tag : List Char) (attrs : List (List Char × List Char))
       (text : List Char) (children : List Elem) (tail : List Char)

/-- The tag of an element. -/
def Elem.tag : Elem → List Char
  | .mk t _ _ _ _ => t

/-- The attributes of an element. -/
def Elem.attrs : Elem → List (List Char × List Char)
  | .mk _ a _ _ _ => a

/-- The text of an element. -/
def Elem.text : Elem → List Char
  | .mk _ _ x _ _ => x

/-- The children of an element. -/
def Elem.children : Elem → List Elem
  | .mk _ _ _ c _ => c

/-- The tail of an element. -/
def Elem.tail : Elem → List Char
  | .mk _ _ _ _ l => l

/-- The label table: a Python dict from label name to counter value,
as an insertion-ordered association list with unique keys. -/
abbrev LTable := List (List Char × Nat)

/-- Python `name in label_dict` / `label_dict[name]`. -/
def lookupLabel (t : LTable) (k : List Char) : Option Nat :=
  List.lookup k t

/-- The lazy group of r'label\[(.+?)\]' (no DOTALL): having seen
`label[`, consume at least one non-newline character and close at the
first `]` thereafter, returning the captured group and the remaining
input.  `acc` holds the group so far, reversed. -/
def findClose (acc : List Char) : List Char → Option (List Char × List Char)
  | [] => none
  | c :: cs =>
    if c = '\n' then none
    else if c = ']' ∧ acc ≠ [] then some (acc.reverse, cs)
    else findClose (c :: acc) cs

/-- One step of re.findall scanning for r'label\[(.+?)\]': fuelled
left-to-right scan; a match is consumed whole (non-overlapping), a
failed position advances by one character. -/
def scanLabelsAux : Nat → List Char → List (List Char)
  | 0, _ => []
  | _, [] => []
  | fuel + 1, s@(_ :: cs) =>
    if startsWithL s ('l' :: 'a' :: 'b' :: 'e' :: 'l' :: '[' :: []) then
      match findClose [] (s.drop 6) with
      | some (grp, rest) => grp :: scanLabelsAux fuel rest
      | none => scanLabelsAux fuel cs
    else scanLabelsAux fuel cs

/-- re.findall(LABEL_RE, s) of the source. -/
def scanLabels (s : List Char) : List (List Char) := scanLabelsAux s.length s

/-- re.sub(LABEL_RE, '', s): same scan, matches removed, everything
else kept. -/
def removeLabelsAux : Nat → List Char → List Char
  | 0, s => s
  | _, [] => []
  | fuel + 1, s@(c :: cs) =>
    if startsWithL s ('l' :: 'a' :: 'b' :: 'e' :: 'l' :: '[' :: []) then
      match findClose [] (s.drop 6) with
      | some (_, rest) => removeLabelsAux fuel rest
      | none => c :: removeLabelsAux fuel cs
    else c :: removeLabelsAux fuel cs

/-- re.sub(LABEL_RE, '', s) of the source. -/
def removeLabels (s : List Char) : List Char := removeLabelsAux s.length s

/-- The THEOREMS keyword list of TheoremProcessor, in source order. -/
def THEOREMS : List (List Char) :=
  ["corollary".toList, "definition".toList, "example".toList, "lemma".toList,
   "proposition".toList, "remark".toList, "theorem".toList]

/-- TheoremProcessor.test keyword scan: the first keyword kw of
THEOREMS with block.lower().startswith(kw + ':'), if any. -/
def matchTheorem (block : List Char) : Option (List Char) :=
  THEOREMS.find? (fun kw => startsWithL (toLowerL block) (kw ++ [':']))

/-- TheoremProcessor.test: in list context nothing is recognized;
otherwise the keyword scan decides. -/
def thmTest (inList : Bool) (block : List Char) : Option (List Char) :=
  if inList then none else matchTheorem block

/-- Python str.title() for a single lowercase keyword: capitalize the
first character. -/
def titleWord : List Char → List Char
  | [] => []
  | c :: cs => c.toUpper :: cs

/-- An EStateM-style result: the state is carried on success and on
error, so an error records the mutable state at the raise site. -/
inductive Res (σ : Type) (α : Type) where
  | ok (a : α) (st : σ)
  | err (e : Err) (st : σ)

/-- The element emitted by TheoremProcessor.run for keyword kw at
counter value n with remaining block text tl:
p.class = kw-container, anchor class/name/text per source, tail tl. -/
def mkThmElem (kw : List Char) (n : Nat) (tl : List Char) : Elem :=
  .mk ['p'] [("class".toList, kw ++ "-container".toList)] []
    [.mk ['a']
      [("class".toList, "theorem-like-title ".toList ++ kw ++ "-title".toList),
       ("name".toList, "theorem-ref-".toList ++ natStr n)]
      (titleWord kw ++ [' '] ++ natStr n ++ ['.'])
      [] tl]
    []

/-- TheoremProcessor.run, lines 55-90 of src/latexmd.py: strip the
keyword and colon, find label commands, validate (more than one label,
then duplicate, then format — in source order), record the label, strip
label tokens, emit the container, increment the counter.  Errors carry
the (label table, counter) state live at the raise site. -/
def thmRun (kw block : List Char) (labels : LTable) (counter : Nat) :
    Res (LTable × Nat) Elem :=
  let b := block.drop (kw.length + 1)
  let ls := scanLabels b
  if ls.length > 1 then .err .multipleLabels (labels, counter)
  else
    match ls with
    | [] => .ok (mkThmElem kw counter b) (labels, counter + 1)
    | l :: _ =>
      if (lookupLabel labels l).isSome then .err .duplicateLabel (labels, counter)
      else if ¬ reMatchLabelFormat l then .err .invalidLabelFormat (labels, counter)
      else .ok (mkThmElem kw counter (removeLabels b))
        (labels ++ [(l, counter)], counter + 1)

/-- The three flags of ProofProcessor: start_proof, in_proof,
end_proof. -/
structure PFlags where
  startP : Bool
  inP : Bool
  endP : Bool
  deriving DecidableEq, Repr

/-- The initial (and fully closed) proof state. -/
def PFlags.closed : PFlags := ⟨false, false, false⟩

/-- The end-marker half of ProofProcessor.test (lines 122-127): runs
after start detection, on the flags as already updated by it. -/
def prfTestEnd (block : List Char) (s : PFlags) : Res PFlags Bool :=
  if endsWithL block ['[', ']'] then
    if ¬ (s.startP ∨ s.inP) then .err .danglingProofEnd s
    else
      let s' := { s with endP := true }
      .ok (s'.startP ∨ s'.inP ∨ s'.endP) s'
  else .ok (s.startP ∨ s.inP ∨ s.endP) s

/-- ProofProcessor.test (lines 112-127): in list context nothing is
recognized; otherwise start detection (raising if a span is open) then
end detection, returning whether any flag is set. -/
def prfTest (inList : Bool) (block : List Char) (s : PFlags) : Res PFlags Bool :=
  if inList then .ok false s
  else if startsWithL (toLowerL block) "proof:".toList then
    if s.startP ∨ s.inP ∨ s.endP then .err .proofAlreadyOpen s
    else prfTestEnd block { s with startP := true }
  else prfTestEnd block s

/-- lastChild-based continuation: append p as a child of the last
sibling (the open proof container).  The source would crash on an
empty parent (lastChild is None); that case is unreachable because a
set in_proof flag implies an emitted container. -/
def appendToLastChild (sibs : List Elem) (p : Elem) : List Elem :=
  match sibs.reverse with
  | [] => []
  | .mk t a x c l :: rest => (Elem.mk t a x (c ++ [p]) l :: rest).reverse

/-- The flag transition at the end of ProofProcessor.run (lines
153-161): end-flagged closes everything, start-only moves to
in-progress, otherwise the flags stay. -/
def prfTransition (s : PFlags) : PFlags :=
  if s.endP then PFlags.closed
  else if s.startP then ⟨false, true, false⟩
  else s

/-- ProofProcessor.run (lines 129-161): strip markers per flags, open a
new proof-container div on start or extend the last sibling otherwise,
emit the paragraph (titled on start), and transition the flags. -/
def prfRun (block : List Char) (s : PFlags) (sibs : List Elem) :
    List Elem × PFlags :=
  let b := if s.startP then block.drop 6 else block
  let b := if s.endP then b.take (b.length - 2) else b
  let sibs' :=
    if s.startP then
      sibs ++ [Elem.mk "div".toList [("class".toList, "proof-container".toList)] []
        [Elem.mk ['p'] [] []
          [Elem.mk "span".toList [("class".toList, "proof-title".toList)]
            "Proof.".toList [] b] []] []]
    else appendToLastChild sibs (Elem.mk ['p'] [] b [] [])
  (sibs', prfTransition s)

/-- The per-document mutable state the extension carries: the label
table, the theorem counter, and the proof flags. -/
structure ConvSt where
  labels : LTable
  counter : Nat
  pf : PFlags

/-- The state at pipeline setup: empty table, counter 1, closed
proof span. -/
def initSt : ConvSt := ⟨[], 1, PFlags.closed⟩

/-- The fallback ParagraphProcessor: a plain p element with the
left-stripped block text. -/
def plainPara (block : List Char) : Elem :=
  .mk ['p'] [] (lstripL block) [] []

/-- One block through the block-processor registry in its actual order
(thmproc before prfproc, both priority 20; ties keep registration
order): the first processor whose test accepts runs; otherwise the
paragraph fallback.  Errors carry the state live at the raise site. -/
def blockStep (inList : Bool) (block : List Char) (sibs : List Elem)
    (st : ConvSt) : Res ConvSt (List Elem) :=
  match thmTest inList block with
  | some kw =>
    match thmRun kw block st.labels st.counter with
    | .err e (l', c') => .err e { st with labels := l', counter := c' }
    | .ok el (l', c') => .ok (sibs ++ [el]) { st with labels := l', counter := c' }
  | none =>
    match prfTest inList block st.pf with
    | .err e pf' => .err e { st with pf := pf' }
    | .ok true pf' =>
      let (sibs', pf'') := prfRun block pf' sibs
      .ok sibs' { st with pf := pf'' }
    | .ok false pf' => .ok (sibs ++ [plainPara block]) { st with pf := pf' }

/-- The same registry with the two extension passes swapped (prfproc
consulted before thmproc), for the order-(in)dependence claim. -/
def blockStepPrfFirst (inList : Bool) (block : List Char) (sibs : List Elem)
    (st : ConvSt) : Res ConvSt (List Elem) :=
  match prfTest inList block st.pf with
  | .err e pf' => .err e { st with pf := pf' }
  | .ok true pf' =>
    let (sibs', pf'') := prfRun block pf' sibs
    .ok sibs' { st with pf := pf'' }
  | .ok false pf' =>
    match thmTest inList block with
    | some kw =>
      match thmRun kw block st.labels st.counter with
      | .err e (l', c') => .err e { st with labels := l', counter := c', pf := pf' }
      | .ok el (l', c') => .ok (sibs ++ [el]) { st with labels := l', counter := c', pf := pf' }
    | none => .ok (sibs ++ [plainPara block]) { st with pf := pf' }

/-- A document for the block phase: each block with its list-context
flag. -/
abbrev Doc := List (Bool × List Char)

/-- Phase 1 of markdown conversion: parser.parseDocument runs every
block through the registry, in source order, before any inline
processing happens. -/
def phase1 : Doc → List Elem → ConvSt → Res ConvSt (List Elem)
  | [], sibs, st => .ok sibs st
  | (il, b) :: rest, sibs, st =>
    match blockStep il b sibs st with
    | .err e st' => .err e st'
    | .ok sibs' st' => phase1 rest sibs' st'

/-- A fragment of inline text under processing: raw text still scanned
by later patterns, a stashed replacement string (not re-scanned, the
engine's placeholder mechanism), or a stashed element node. -/
inductive Seg where
  | raw (s : List Char)
  | done (s : List Char)
  | node (e : Elem)

/-- The lazy group of an inline pattern `opener(.+?)closer` compiled
with DOTALL: at least one character (any character) then the first
position where the closer matches.  Returns group and rest. -/
def lazyClose (closer : List Char) (acc : List Char) : List Char → Option (List Char × List Char)
  | [] => none
  | c :: cs =>
    if closer.isPrefixOf cs then some ((c :: acc).reverse, cs.drop closer.length)
    else lazyClose closer (c :: acc) cs

/-- Prepend one unmatched character, merging into a leading raw
segment. -/
def consRaw (c : Char) : List Seg → List Seg
  | .raw s :: rest => .raw (c :: s) :: rest
  | segs => .raw [c] :: segs

/-- Fuelled scan of one raw text by one math pattern: on a match the
group is wrapped as wl ++ group ++ wr and stashed; otherwise advance
one character.  The engine applies a pattern repeatedly across the
text before the next pattern runs, and never re-scans stashed
output. -/
def scanMathAux (op cl wl wr : List Char) : Nat → List Char → List Seg
  | 0, s => if s.isEmpty then [] else [.raw s]
  | _ + 1, [] => []
  | fuel + 1, s@(c :: cs) =>
    if op.isPrefixOf s then
      match lazyClose cl [] (s.drop op.length) with
      | some (grp, rest) => .done (wl ++ grp ++ wr) :: scanMathAux op cl wl wr fuel rest
      | none => consRaw c (scanMathAux op cl wl wr fuel cs)
    else consRaw c (scanMathAux op cl wl wr fuel cs)

/-- One math pattern over one raw text. -/
def scanMath (op cl wl wr s : List Char) : List Seg :=
  scanMathAux op cl wl wr s.length s

/-- One math pattern over a segment list: only raw segments are
scanned. -/
def applyMath (op cl wl wr : List Char) (segs : List Seg) : List Seg :=
  segs.flatMap fun seg =>
    match seg with
    | .raw s => scanMath op cl wl wr s
    | other => [other]

/-- The four math delimiter passes in their registry order (all at
priority 185, ties keep registration order): inline-math-paren,
inline-math-dollar, display-math-bracket, display-math-dollars. -/
def mathNormalizeSegs (segs : List Seg) : List Seg :=
  applyMath "$$".toList "$$".toList "\\[".toList "\\]".toList
    (applyMath "\\[".toList "\\]".toList "\\[".toList "\\]".toList
      (applyMath ['$'] ['$'] "\\(".toList "\\)".toList
        (applyMath "\\(".toList "\\)".toList "\\(".toList "\\)".toList segs)))

/-- The Math Normalizer on one inline text span. -/
def mathNormalize (s : List Char) : List Seg := mathNormalizeSegs [.raw s]

/-- The plain text of a segment list (element nodes render
separately). -/
def flattenSegs (segs : List Seg) : List Char :=
  segs.flatMap fun seg =>
    match seg with
    | .raw s => s
    | .done s => s
    | .node _ => []

/-- The link element LatexRefCommandProcessor emits for a resolved
reference number v. -/
def refLinkElem (v : Nat) : Elem :=
  .mk ['a'] [("href".toList, "#theorem-ref-".toList ++ natStr v)] (natStr v) [] []

/-- LatexRefCommandProcessor.handleMatch (lines 169-184): validate the
captured name, look it up, emit the link element. -/
def refHandleMatch (t : LTable) (name : List Char) : Except Err Elem :=
  if ¬ reMatchLabelFormat name then .error .invalidRefFormat
  else
    match lookupLabel t name with
    | none => .error .unresolvedReference
    | some v => .ok (refLinkElem v)

/-- Prepend one unmatched character under Except. -/
def consRawE (c : Char) : Except Err (List Seg) → Except Err (List Seg)
  | .ok segs => .ok (consRaw c segs)
  | .error e => .error e

/-- Fuelled scan of one raw text by the ref pattern r'ref\[(.+?)\]'
(priority 2, runs after the math passes): each match is resolved
through refHandleMatch, whose ValueError aborts the conversion. -/
def scanRefAux (t : LTable) : Nat → List Char → Except Err (List Seg)
  | 0, s => .ok (if s.isEmpty then [] else [.raw s])
  | _ + 1, [] => .ok []
  | fuel + 1, s@(c :: cs) =>
    if "ref[".toList.isPrefixOf s then
      match lazyClose [']'] [] (s.drop 4) with
      | some (grp, rest) =>
        match refHandleMatch t grp with
        | .error e => .error e
        | .ok el =>
          match scanRefAux t fuel rest with
          | .error e => .error e
          | .ok segs => .ok (.node el :: segs)
      | none => consRawE c (scanRefAux t fuel cs)
    else consRawE c (scanRefAux t fuel cs)

/-- The ref pass over a segment list. -/
def applyRef (t : LTable) : List Seg → Except Err (List Seg)
  | [] => .ok []
  | .raw s :: rest =>
    match scanRefAux t s.length s with
    | .error e => .error e
    | .ok segs =>
      match applyRef t rest with
      | .error e => .error e
      | .ok segs' => .ok (segs ++ segs')
  | other :: rest =>
    match applyRef t rest with
    | .error e => .error e
    | .ok segs' => .ok (other :: segs')

/-- Inline processing of one text span: the four math passes (priority
185) then the ref pass (priority 2). -/
def inlineProcess (t : LTable) (s : List Char) : Except Err (List Seg) :=
  applyRef t (mathNormalize s)

/-- Every text and tail of a tree, in preorder (node text, node tail,
children, then following siblings), as a fuelled worklist traversal:
each step consumes one node, so any fuel at least the node count
yields the full traversal. -/
def allTexts : Nat → List Elem → List (List Char)
  | _, [] => []
  | 0, _ :: _ => []
  | fuel + 1, .mk _ _ tx ch tl :: rest => tx :: tl :: allTexts fuel (ch ++ rest)

/-- Whole-document conversion: the block phase runs over every block
of the document first (building the tree and the full label table),
then the inline passes run over every text of the finished tree with
that table.  Returns the block-phase tree and the processed texts.
Every block contributes at most three tree nodes (a proof start makes
div, p and span), so three times the block count bounds the node count
and suffices as traversal fuel. -/
def convert (doc : Doc) : Except Err (List Elem × List (List Seg)) :=
  match phase1 doc [] initSt with
  | .err e _ => .error e
  | .ok sibs st =>
    match (allTexts (3 * doc.length) sibs).mapM (inlineProcess st.labels) with
    | .error e => .error e
    | .ok ts => .ok (sibs, ts)

/-- The state a step result carries (on success or at the raise
site). -/
def resSt {σ α : Type} : Res σ α → σ
  | .ok _ s => s
  | .err _ s => s

/-- Whether a step result is a success. -/
def resIsOk {σ α : Type} : Res σ α → Bool
  | .ok _ _ => true
  | .err _ _ => false

/-- The sibling list a successful block step produced (empty on
error). -/
def resElems : Res ConvSt (List Elem) → List Elem
  | .ok els _ => els
  | .err _ _ => []

/-- Whether ProofProcessor.test accepts the block (returns True) in
the given flag state, outside list context. -/
def prfAccepts (block : List Char) (pf : PFlags) : Bool :=
  match prfTest false block pf with
  | .ok r _ => r
  | .err _ _ => false

/-- Whether whole-document conversion succeeds. -/
def convOk (d : Doc) : Bool :=
  match convert d with
  | .ok _ => true
  | .error _ => false

/-- The processed texts of a successful conversion. -/
def convTexts (d : Doc) : List (List Seg) :=
  match convert d with
  | .ok (_, ts) => ts
  | .error _ => []

/-- A document whose reference appears earlier in document order than
the theorem block defining its label. -/
def fwdDoc : Doc :=
  [(false, "See ref[foo] now.".toList), (false, "Theorem: label[foo] Easy.".toList)]

/-- The state after processing an opening proof block: a proof span is
in progress. -/
def openSt : ConvSt := ⟨[], 1, ⟨false, true, false⟩⟩

/-- The sibling list after processing the opening proof block of the
overlap scenario. -/
def openSibs : List Elem :=
  [Elem.mk "div".toList [("class".toList, "proof-container".toList)] []
    [Elem.mk ['p'] [] []
      [Elem.mk "span".toList [("class".toList, "proof-title".toList)]
        "Proof.".toList [] " A.".toList] []] []]

/-- A block that begins with a theorem keyword while a proof span is
open, and also carries a proof end marker. -/
def overlapBlock : List Char := "Theorem: B. []".toList

/-- The proof-flag states observable between blocks: fully closed, or
in-progress only. -/
def ReachInv (pf : PFlags) : Prop :=
  pf = PFlags.closed ∨ pf = ⟨false, true, false⟩

/-- Two prefixes of one list are comparable. -/
theorem mutualPre : ∀ {s l1 l2 : List Char}, l1 <+: s → l2 <+: s → l1 <+: l2 ∨ l2 <+: l1 := by
  intro s
  induction s with
  | nil =>
    intro l1 l2 h1 h2
    rw [List.prefix_nil] at h1
    exact Or.inl (h1 ▸ List.nil_prefix)
  | cons a s ih =>
    intro l1 l2 h1 h2
    match l1, l2 with
    | [], l2 => exact Or.inl List.nil_prefix
    | l1, [] => exact Or.inr List.nil_prefix
    | b :: t1, c :: t2 =>
      rw [List.cons_prefix_cons] at h1 h2
      rcases ih h1.2 h2.2 with h | h
      · exact Or.inl (List.cons_prefix_cons.mpr ⟨h1.1.trans h2.1.symm, h⟩)
      · exact Or.inr (List.cons_prefix_cons.mpr ⟨h2.1.trans h1.1.symm, h⟩)

/-- A candidate marker that is incomparable with a known prefix of the
block cannot itself be a prefix of the block. -/
theorem not_pre_of {lb p q : List Char} (hq : q <+: lb) (hn : ¬ (p <+: q ∨ q <+: p)) :
    startsWithL lb p = false := by
  by_contra hcon
  rw [Bool.not_eq_false, startsWithL] at hcon
  simp only [ List.isPrefixOf_iff_prefix] at hcon
  exact hn (mutualPre hcon hq)

/-- A find? on a list whose satisfier is unique returns that
satisfier. -/
theorem find?_unique {α : Type} {p : α → Bool} {l : List α} {x : α}
    (hx : x ∈ l) (hpx : p x = true)
    (huniq : ∀ y ∈ l, p y = true → y = x) : l.find? p = some x := by
  induction l with
  | nil => cases hx
  | cons a t ih =>
    by_cases ha : p a = true
    · have hax : a = x := huniq a (List.mem_cons_self a t) ha
      subst hax
      exact List.find?_cons_of_pos _ ha
    · rw [List.find?_cons_of_neg _ ha]
      rcases List.mem_cons.mp hx with rfl | hxt
      · exact absurd hpx ha
      · exact ih hxt (fun y hy hpy => huniq y (List.mem_cons_of_mem _ hy) hpy)

/-- No marker of one theorem keyword is a prefix of another's. -/
theorem kwPairwise : (THEOREMS.all fun a => THEOREMS.all fun b =>
    !(a ++ [':']).isPrefixOf (b ++ [':']) || (a == b)) = true := by decide

/-- The proof marker is incomparable with every theorem-keyword
marker. -/
theorem kwProofPairs : (THEOREMS.all fun a =>
    !(a ++ [':']).isPrefixOf "proof:".toList &&
    !"proof:".toList.isPrefixOf (a ++ [':'])) = true := by decide

/-- Keyword markers that are prefixes of one another are equal. -/
theorem kw_eq_of_pre {a b : List Char} (ha : a ∈ THEOREMS) (hb : b ∈ THEOREMS)
    (h : (a ++ [':']) <+: (b ++ [':'])) : a = b := by
  have hall := kwPairwise
  rw [List.all_eq_true] at hall
  have h1 := hall a ha
  rw [List.all_eq_true] at h1
  have h2 := h1 b hb
  have hbp : (a ++ [':']).isPrefixOf (b ++ [':']) = true := by simpa using h
  rw [hbp] at h2
  simpa using h2

/-- When the lowered block has keyword kw and a colon as a prefix, the
keyword scan of TheoremProcessor.test finds exactly kw. -/
theorem matchTheorem_eq {block kw : List Char} (hkw : kw ∈ THEOREMS)
    (hpre : (kw ++ [':']) <+: toLowerL block) : matchTheorem block = some kw := by
  have hsw : startsWithL (toLowerL block) (kw ++ [':']) = true := by
    simpa [startsWithL] using hpre
  rw [matchTheorem]
  refine find?_unique hkw hsw ?_
  intro y hy hpy
  have hpre' : (y ++ [':']) <+: toLowerL block := by simpa [startsWithL] using hpy
  rcases mutualPre hpre' hpre with h | h
  · exact kw_eq_of_pre hy hkw h
  · exact (kw_eq_of_pre hkw hy h).symm

/-- A block whose lowered text starts with the proof marker matches no
theorem keyword. -/
theorem matchTheorem_none_of_proofStart {block : List Char}
    (h : startsWithL (toLowerL block) "proof:".toList = true) : matchTheorem block = none := by
  rw [matchTheorem, List.find?_eq_none]
  intro kw hkw hp
  have h1 : "proof:".toList <+: toLowerL block := by simpa [startsWithL] using h
  have h2 : (kw ++ [':']) <+: toLowerL block := by simpa [startsWithL] using hp
  have hall := kwProofPairs
  rw [List.all_eq_true] at hall
  have hkw' := hall kw hkw
  rcases mutualPre h2 h1 with h3 | h3
  · have : (kw ++ [':']).isPrefixOf "proof:".toList = true := by simpa using h3
    rw [this] at hkw'
    simp at hkw'
  · have : "proof:".toList.isPrefixOf (kw ++ [':']) = true := by simpa using h3
    rw [this] at hkw'
    simp at hkw'

/-- A block matched by the keyword scan does not start with the proof
marker. -/
theorem proofStart_false_of_match {block kw : List Char} (h : matchTheorem block = some kw) :
    startsWithL (toLowerL block) "proof:".toList = false := by
  by_contra hcon
  rw [Bool.not_eq_false] at hcon
  rw [matchTheorem_none_of_proofStart hcon] at h
  cases h

/-- A successful dict lookup means the pair is in the table. -/
theorem lookup_some_mem {t : LTable} {k : List Char} {v : Nat}
    (h : lookupLabel t k = some v) : (k, v) ∈ t := by
  rw [lookupLabel, List.lookup_eq_some_iff] at h
  obtain ⟨l1, l2, rfl, -⟩ := h
  simp

/-- The group captured by the label scanner contains no newline (the
dot of the label pattern is compiled without DOTALL). -/
theorem findClose_no_nl : ∀ {l acc grp rest : List Char},
    findClose acc l = some (grp, rest) → (∀ c ∈ acc, c ≠ '\n') → '\n' ∉ grp := by
  intro l
  induction l with
  | nil => intro acc grp rest h; simp [findClose] at h
  | cons c cs ih =>
    intro acc grp rest h hacc
    rw [findClose] at h
    by_cases h1 : c = '\n'
    · simp [h1] at h
    · rw [if_neg h1] at h
      by_cases h2 : c = ']' ∧ acc ≠ []
      · rw [if_pos h2] at h
        injection h with h'
        injection h' with hgrp hrest
        subst hgrp
        intro hmem
        rw [List.mem_reverse] at hmem
        exact hacc _ hmem rfl
      · rw [if_neg h2] at h
        refine ih h ?_
        intro d hd
        rcases List.mem_cons.mp hd with rfl | hd'
        · exact h1
        · exact hacc d hd'

/-- Every name the label scanner returns is newline-free. -/
theorem scanLabelsAux_no_nl : ∀ {fuel : Nat} {s grp : List Char},
    grp ∈ scanLabelsAux fuel s → '\n' ∉ grp := by
  intro fuel
  induction fuel with
  | zero => intro s grp h; simp [scanLabelsAux] at h
  | succ n ih =>
    intro s grp h
    match s with
    | [] => simp [scanLabelsAux] at h
    | c :: cs =>
      rw [scanLabelsAux] at h
      by_cases h1 : startsWithL (c :: cs) ('l' :: 'a' :: 'b' :: 'e' :: 'l' :: '[' :: []) = true
      · rw [if_pos h1] at h
        cases h2 : findClose [] ((c :: cs).drop 6) with
        | none => rw [h2] at h; exact ih h
        | some pr =>
          rw [h2] at h
          rcases List.mem_cons.mp h with rfl | h3
          · exact findClose_no_nl (by simpa using h2) (by simp)
          · exact ih h3
      · rw [if_neg h1] at h
        exact ih h

/-- Every name the label scanner returns is newline-free (packaged for
scanLabels). -/
theorem scanLabels_no_nl {s grp : List Char} (h : grp ∈ scanLabels s) : '\n' ∉ grp :=
  scanLabelsAux_no_nl h

/-- TheoremProcessor.run raises only before it mutates the label table
or the counter. -/
theorem thmRun_err {kw block : List Char} {l : LTable} {c : Nat} {e : Err}
    {l' : LTable} {c' : Nat} (h : thmRun kw block l c = .err e (l', c')) :
    l' = l ∧ c' = c := by
  rw [thmRun] at h
  split at h
  · injection h with h1 h2
    injection h2 with h3 h4
    exact ⟨h3.symm, h4.symm⟩
  · split at h
    · cases h
    · split at h
      · injection h with h1 h2
        injection h2 with h3 h4
        exact ⟨h3.symm, h4.symm⟩
      · split at h
        · injection h with h1 h2
          injection h2 with h3 h4
          exact ⟨h3.symm, h4.symm⟩
        · cases h

/-- The end-marker half of ProofProcessor.test raises only with the
flags it was given, and only when neither start nor in-progress is
set. -/
theorem prfTestEnd_err {block : List Char} {s : PFlags} {e : Err} {s' : PFlags}
    (h : prfTestEnd block s = .err e s') :
    s' = s ∧ s.startP = false ∧ s.inP = false := by
  rw [prfTestEnd] at h
  split at h
  · split at h
    · rename_i hc
      injection h with h1 h2
      refine ⟨h2.symm, ?_, ?_⟩
      · cases hs : s.startP
        · rfl
        · exact absurd (Or.inl hs) hc
      · cases hs : s.inP
        · rfl
        · exact absurd (Or.inr hs) hc
    · cases h
  · cases h

/-- ProofProcessor.test raises only with the flags unchanged from
entry. -/
theorem prfTest_err {il : Bool} {block : List Char} {s : PFlags} {e : Err} {s' : PFlags}
    (h : prfTest il block s = .err e s') : s' = s := by
  rw [prfTest] at h
  split at h
  · cases h
  · split at h
    · split at h
      · injection h with h1 h2
        exact h2.symm
      · have h3 := prfTestEnd_err h
        have h4 := h3.2.1
        simp at h4
    · exact (prfTestEnd_err h).1

/-- From a between-blocks state, a successful ProofProcessor.test
leaves the flags unchanged when it rejects, and when it accepts the
run transition lands back in a between-blocks state. -/
theorem prfTest_ok_inv {block : List Char} {s : PFlags} {r : Bool} {s' : PFlags}
    (hs : ReachInv s) (h : prfTest false block s = .ok r s') :
    (r = false → s' = s) ∧ ReachInv (prfTransition s') := by
  rcases hs with rfl | rfl <;>
    by_cases h1 : startsWithL (toLowerL block) "proof:".toList <;>
    by_cases h2 : endsWithL block ['[', ']'] <;>
    simp only [prfTest, prfTestEnd, PFlags.closed, h1, h2, if_true, if_false,
      Bool.false_eq_true, Bool.true_eq_false, or_self, or_true, true_or, or_false,
      false_or, not_true, not_false_iff, not_false_eq_true, ite_true, ite_false,
      if_neg, Bool.not_eq_true] at h <;>
    (injection h <;> subst_vars <;> refine ⟨?_, ?_⟩ <;>
      simp [ReachInv, prfTransition, PFlags.closed])

/-- C1 (amended): a ref whose well-formed name is absent from the
Label Table at resolution time fails with UnresolvedReferenceError,
and one whose name is present resolves to the link element carrying
the recorded number; the table consulted at resolution time is the one
the completed block phase produced, so presence is presence anywhere
in the document, not only earlier in document order. -/
theorem c1_resolution (t : LTable) (name : List Char) (hv : validLabelStr name = true) :
    (lookupLabel t name = none → refHandleMatch t name = .error .unresolvedReference) ∧
    ∀ v, lookupLabel t name = some v → refHandleMatch t name = .ok (refLinkElem v) := by
  have hfmt : reMatchLabelFormat name = true := by
    simp only [reMatchLabelFormat, decide_eq_true_eq]
    exact Or.inl hv
  constructor
  · intro hl
    simp [refHandleMatch, hfmt, hl]
  · intro v hl
    simp [refHandleMatch, hfmt, hl]

/-- Witness for c1_resolution at a concrete table and name. -/
theorem c1_resolution_witness :
    validLabelStr "b".toList = true ∧
    refHandleMatch [("a".toList, 1)] "b".toList = .error .unresolvedReference :=
  ⟨by decide, (c1_resolution [("a".toList, 1)] "b".toList (by decide)).1 rfl⟩

/-- C1 (counterexample): a document whose ref[foo] appears earlier in
document order than the theorem block defining label[foo] converts
without error — the first processed text resolves to the link to
theorem-ref-1 — because every block is parsed before any reference is
resolved; the claim's single-pass failure does not occur. -/
theorem c1_counterexample :
    convOk fwdDoc = true ∧
    (convTexts fwdDoc).head? =
      some [Seg.raw "See ".toList, Seg.node (refLinkElem 1), Seg.raw " now.".toList] :=
  ⟨by rfl, by rfl⟩

/-- C2 (evaluation at the failing input): the Math Normalizer sends
the inline span consisting of double-dollar delimiters around x to
backslash-paren delimiters around dollar-x followed by a stray dollar,
not to the claimed backslash-bracket form, because the single-dollar
pass is registered before the double-dollar pass at the same priority
and consumes the first non-greedy single-dollar match; the other three
delimiter syntaxes are normalized as claimed. -/
theorem c2_math_normalizer_bug :
    flattenSegs (mathNormalize "$$x$$".toList) = "\\($x\\)$".toList ∧
    flattenSegs (mathNormalize "$$x$$".toList) ≠ "\\[x\\]".toList ∧
    flattenSegs (mathNormalize "$x$".toList) = "\\(x\\)".toList ∧
    flattenSegs (mathNormalize "\\(x\\)".toList) = "\\(x\\)".toList ∧
    flattenSegs (mathNormalize "\\[x\\]".toList) = "\\[x\\]".toList :=
  ⟨rfl, by decide, rfl, rfl, rfl⟩

/-- C5: a single start-and-end proof block yields exactly one
proof-container div holding one paragraph whose leading span has class
proof-title and text Proof. with the stripped block text as its tail;
a start block followed by a continuation block and an end block yields
one proof-container div holding the titled paragraph and the two plain
paragraphs in document order, and the proof state returns to
closed. -/
theorem c5_proof_containers :
    phase1 [(false, "Proof: A. []".toList)] [] initSt =
      .ok [Elem.mk "div".toList [("class".toList, "proof-container".toList)] []
        [Elem.mk ['p'] [] []
          [Elem.mk "span".toList [("class".toList, "proof-title".toList)]
            "Proof.".toList [] " A. ".toList] []] []] initSt ∧
    phase1 [(false, "Proof: A.".toList), (false, "B.".toList), (false, "C. []".toList)] [] initSt =
      .ok [Elem.mk "div".toList [("class".toList, "proof-container".toList)] []
        [Elem.mk ['p'] [] []
          [Elem.mk "span".toList [("class".toList, "proof-title".toList)]
            "Proof.".toList [] " A.".toList] [],
         Elem.mk ['p'] [] "B.".toList [] [],
         Elem.mk ['p'] [] "C. ".toList [] []] []] initSt :=
  ⟨rfl, rfl⟩

/-- C9: inside a list context neither the theorem nor the proof
processor recognizes any block — the block is emitted as an ordinary
paragraph and the label table, counter and proof flags are all left
unchanged. -/
theorem c9_list_context (block : List Char) (sibs : List Elem) (st : ConvSt) :
    blockStep true block sibs st = .ok (sibs ++ [plainPara block]) st := rfl

/-- C10: whenever a block step raises any of the validation errors,
the state it leaves behind — label table, theorem counter and proof
flags — is exactly the state from before the block. -/
theorem c10_error_atomicity (il : Bool) (block : List Char) (sibs : List Elem)
    (st : ConvSt) (e : Err) (st' : ConvSt)
    (h : blockStep il block sibs st = .err e st') : st' = st := by
  cases hmt : thmTest il block with
  | some kw =>
    cases hr : thmRun kw block st.labels st.counter with
    | err e2 p =>
      obtain ⟨l', c'⟩ := p
      simp only [blockStep, hmt, hr] at h
      injection h with h1 h2
      obtain ⟨hl, hc⟩ := thmRun_err hr
      subst hl
      subst hc
      exact h2.symm
    | ok el p =>
      obtain ⟨l', c'⟩ := p
      simp only [blockStep, hmt, hr] at h
      cases h
  | none =>
    cases hp : prfTest il block st.pf with
    | err e2 pf' =>
      simp only [blockStep, hmt, hp] at h
      injection h with h1 h2
      have := prfTest_err hp
      subst this
      exact h2.symm
    | ok r pf' =>
      cases r
      · simp only [blockStep, hmt, hp] at h
        cases h
      · simp only [blockStep, hmt, hp] at h
        cases h

/-- Witness for c10_error_atomicity at a concrete erroring input. -/
theorem c10_error_atomicity_witness :
    blockStep false "x []".toList [] initSt = .err .danglingProofEnd initSt ∧
    initSt = initSt :=
  ⟨rfl, c10_error_atomicity false "x []".toList [] initSt .danglingProofEnd initSt rfl⟩

/-- C4: a non-list block formed of a category keyword (matched
case-insensitively against the seven), a colon and trailing text with
no label token converts to a paragraph of class keyword-container
holding an anchor named theorem-ref-n whose visible text is the
capitalized keyword, the counter value n and a full stop, followed by
the trailing text as the anchor tail; the shared counter — which
starts at 1 — is incremented exactly once, whatever the category. -/
theorem c4_theorem_numbering (kw K T : List Char) (sibs : List Elem) (st : ConvSt)
    (hkw : kw ∈ THEOREMS) (hK : toLowerL K = kw) (hT : scanLabels T = []) :
    blockStep false (K ++ ':' :: T) sibs st =
      .ok (sibs ++ [mkThmElem kw st.counter T]) { st with counter := st.counter + 1 } ∧
    initSt.counter = 1 := by
  have hlen : K.length = kw.length := by
    have h := congrArg List.length hK
    simpa [toLowerL] using h
  have hcolon : lowerChar ':' = ':' := by decide
  have hlow : toLowerL (K ++ ':' :: T) = (kw ++ [':']) ++ toLowerL T := by
    simp [toLowerL, hcolon]
    simpa [toLowerL] using hK
  have hpre : (kw ++ [':']) <+: toLowerL (K ++ ':' :: T) := by
    rw [hlow]
    exact ⟨toLowerL T, rfl⟩
  have hmt : matchTheorem (K ++ ':' :: T) = some kw := matchTheorem_eq hkw hpre
  have hdrop : (K ++ ':' :: T).drop (kw.length + 1) = T := by
    rw [← hlen]
    have h1 : K ++ ':' :: T = (K ++ [':']) ++ T := by simp
    have h2 : K.length + 1 = (K ++ [':']).length := by simp
    rw [h1, h2]
    exact List.drop_left _ _
  refine ⟨?_, rfl⟩
  simp [blockStep, thmTest, hmt, thmRun, hdrop, hT]

/-- Witness for c4_theorem_numbering at a concrete block. -/
theorem c4_theorem_numbering_witness :
    ("lemma".toList ∈ THEOREMS ∧ toLowerL "Lemma".toList = "lemma".toList ∧
      scanLabels " easy.".toList = []) ∧
    (blockStep false ("Lemma".toList ++ ':' :: " easy.".toList) [] initSt =
      .ok [mkThmElem "lemma".toList initSt.counter " easy.".toList]
        { initSt with counter := initSt.counter + 1 } ∧
    initSt.counter = 1) :=
  ⟨⟨by decide, by decide, by decide⟩,
    c4_theorem_numbering "lemma".toList "Lemma".toList " easy.".toList [] initSt
      (by decide) (by decide) (by decide)⟩

/-- C6: in a recognized theorem-like block, two or more label tokens
fail with MultipleLabelsError; a single label whose name has a
character outside the allowed class fails with InvalidLabelFormat; a
well-formed name already present in the table fails with
DuplicateLabel; otherwise the name is recorded at the current counter
value and the label token is removed from the emitted tail.  The table
hypothesis states the reachable-state invariant that every recorded
name is well-formed. -/
theorem c6_label_validation (kw block : List Char) (sibs : List Elem) (st : ConvSt)
    (hm : matchTheorem block = some kw)
    (hinv : st.labels.all (fun p => validLabelStr p.1) = true) :
    ((scanLabels (block.drop (kw.length + 1))).length > 1 →
      blockStep false block sibs st = .err .multipleLabels st) ∧
    (∀ n c, scanLabels (block.drop (kw.length + 1)) = [n] → c ∈ n →
      validLabelChar c = false →
      blockStep false block sibs st = .err .invalidLabelFormat st) ∧
    (∀ n v, scanLabels (block.drop (kw.length + 1)) = [n] → validLabelStr n = true →
      lookupLabel st.labels n = some v →
      blockStep false block sibs st = .err .duplicateLabel st) ∧
    (∀ n, scanLabels (block.drop (kw.length + 1)) = [n] → validLabelStr n = true →
      lookupLabel st.labels n = none →
      blockStep false block sibs st =
        .ok (sibs ++ [mkThmElem kw st.counter (removeLabels (block.drop (kw.length + 1)))])
          ⟨st.labels ++ [(n, st.counter)], st.counter + 1, st.pf⟩) := by
  refine ⟨?_, ?_, ?_, ?_⟩
  · intro hlong
    simp [blockStep, thmTest, hm, thmRun, hlong]
  · intro n c h1 hc hbad
    have hnl : '\n' ∉ n := by
      refine scanLabels_no_nl (s := block.drop (kw.length + 1)) ?_
      rw [h1]
      exact List.mem_singleton_self n
    have hnv : validLabelStr n = false := by
      simp only [validLabelStr, decide_eq_false_iff_not, not_and]
      intro hne
      rw [List.all_eq_true]
      push_neg
      exact ⟨c, hc, by simp [hbad]⟩
    have hlook : lookupLabel st.labels n = none := by
      cases hl : lookupLabel st.labels n with
      | none => rfl
      | some v =>
        exfalso
        have hmem := lookup_some_mem hl
        rw [List.all_eq_true] at hinv
        have hval := hinv _ hmem
        rw [hval] at hnv
        cases hnv
    have hfmt : reMatchLabelFormat n = false := by
      simp only [reMatchLabelFormat, decide_eq_false_iff_not, not_or, not_and]
      constructor
      · rw [hnv]
        simp
      · intro h2 h3
        exact hnl (List.mem_of_getLast?_eq_some h3)
    simp [blockStep, thmTest, hm, thmRun, h1, hlook, hfmt]
  · intro n v h1 hval hl
    simp [blockStep, thmTest, hm, thmRun, h1, hl]
  · intro n h1 hval hl
    have hfmt : reMatchLabelFormat n = true := by
      simp only [reMatchLabelFormat, decide_eq_true_eq]
      exact Or.inl hval
    simp [blockStep, thmTest, hm, thmRun, h1, hl, hfmt]

/-- Witness for c6_label_validation: a duplicate well-formed label in
a table already holding it. -/
theorem c6_label_validation_witness :
    (matchTheorem "Lemma: label[foo] x".toList = some "lemma".toList ∧
      ([("foo".toList, 1)] : LTable).all (fun p => validLabelStr p.1) = true ∧
      scanLabels ("Lemma: label[foo] x".toList.drop ("lemma".toList.length + 1)) =
        ["foo".toList] ∧
      validLabelStr "foo".toList = true ∧
      lookupLabel [("foo".toList, 1)] "foo".toList = some 1) ∧
    blockStep false "Lemma: label[foo] x".toList []
        ⟨[("foo".toList, 1)], 2, PFlags.closed⟩ =
      .err .duplicateLabel ⟨[("foo".toList, 1)], 2, PFlags.closed⟩ :=
  ⟨⟨by decide, by decide, by decide, by decide, by decide⟩,
    (c6_label_validation "lemma".toList "Lemma: label[foo] x".toList []
        ⟨[("foo".toList, 1)], 2, PFlags.closed⟩ (by decide) (by decide)).2.2.1
      "foo".toList 1 (by decide) (by decide) (by decide)⟩

/-- C7 (counterexample): a non-list block ending with the end marker
while no proof span is open does not always fail — a block that also
begins with a theorem keyword is claimed by the theorem pass, which is
consulted first, and converts without error. -/
theorem c7_counterexample :
    endsWithL "Theorem: ok []".toList ['[', ']'] = true ∧
    startsWithL (toLowerL "Theorem: ok []".toList) "proof:".toList = false ∧
    initSt.pf.startP = false ∧ initSt.pf.inP = false ∧
    resIsOk (blockStep false "Theorem: ok []".toList [] initSt) = true :=
  ⟨by decide, by decide, rfl, rfl, by rfl⟩

/-- C7 (amended): a non-list block beginning case-insensitively with
the proof marker while any proof flag is set fails with
ProofAlreadyOpenError (such a block is never claimed by the theorem
pass); a non-list block ending with the end marker while neither start
nor in-progress is set fails with DanglingProofEndError provided the
theorem pass, which is consulted first, does not claim the block. -/
theorem c7_amended (block : List Char) (sibs : List Elem) (st : ConvSt) :
    (startsWithL (toLowerL block) "proof:".toList = true →
      (st.pf.startP = true ∨ st.pf.inP = true ∨ st.pf.endP = true) →
      blockStep false block sibs st = .err .proofAlreadyOpen st) ∧
    (matchTheorem block = none →
      startsWithL (toLowerL block) "proof:".toList = false →
      endsWithL block ['[', ']'] = true →
      st.pf.startP = false → st.pf.inP = false →
      blockStep false block sibs st = .err .danglingProofEnd st) := by
  constructor
  · intro hsw hflags
    have hmt : matchTheorem block = none := matchTheorem_none_of_proofStart hsw
    have hp : prfTest false block st.pf = .err .proofAlreadyOpen st.pf := by
      rw [prfTest, if_neg (by simp), if_pos hsw, if_pos hflags]
    simp [blockStep, thmTest, hmt, hp]
  · intro hmt hsw hew hstart hin
    have hp : prfTest false block st.pf = .err .danglingProofEnd st.pf := by
      rw [prfTest, if_neg (by simp), if_neg (by rw [hsw]; simp), prfTestEnd,
        if_pos hew, if_pos (by simp [hstart, hin])]
    simp [blockStep, thmTest, hmt, hp]

/-- Witness for c7_amended: the dangling part at a concrete block and
the initial state. -/
theorem c7_amended_witness :
    (matchTheorem "x []".toList = none ∧
      startsWithL (toLowerL "x []".toList) "proof:".toList = false ∧
      endsWithL "x []".toList ['[', ']'] = true ∧
      initSt.pf.startP = false ∧ initSt.pf.inP = false) ∧
    blockStep false "x []".toList [] initSt = .err .danglingProofEnd initSt :=
  ⟨⟨by decide, by decide, by decide, rfl, rfl⟩,
    (c7_amended "x []".toList [] initSt).2 (by decide) (by decide) (by decide) rfl rfl⟩

/-- C3 (counterexample): in the reachable state with a proof span in
progress — reached from the initial state by one opening proof block —
a block beginning with a theorem keyword is accepted by both
processors' tests, and the conversion result depends on the
consultation order: with the theorem pass first the counter advances
to 2 and a second sibling is appended, with the proof pass first the
counter stays 1 and the block is folded into the open container. -/
theorem c3_counterexample :
    phase1 [(false, "Proof: A.".toList)] [] initSt = .ok openSibs openSt ∧
    thmTest false overlapBlock = some "theorem".toList ∧
    prfAccepts overlapBlock openSt.pf = true ∧
    (resSt (blockStep false overlapBlock openSibs openSt)).counter = 2 ∧
    (resSt (blockStepPrfFirst false overlapBlock openSibs openSt)).counter = 1 ∧
    (resElems (blockStep false overlapBlock openSibs openSt)).length = 2 ∧
    (resElems (blockStepPrfFirst false overlapBlock openSibs openSt)).length = 1 :=
  ⟨by rfl, by rfl, by rfl, by rfl, by rfl, by rfl, by rfl⟩

/-- C3 (amended): while no proof span is open and the block carries no
end marker the two trigger conditions are disjoint and the conversion
result is the same whichever of the two passes is consulted first;
with a span open (or an end marker present) a keyword block can be
accepted by both and the order matters. -/
theorem c3_amended (il : Bool) (block : List Char) (sibs : List Elem) (st : ConvSt)
    (hpf : st.pf = PFlags.closed) (hew : endsWithL block ['[', ']'] = false) :
    ¬ ((thmTest il block).isSome = true ∧ prfAccepts block st.pf = true) ∧
    blockStep il block sibs st = blockStepPrfFirst il block sibs st := by
  obtain ⟨l, c, pf⟩ := st
  simp only at hpf
  subst hpf
  cases il with
  | true =>
    constructor
    · simp [thmTest]
    · rfl
  | false =>
    cases hmt : matchTheorem block with
    | none =>
      constructor
      · simp [thmTest, hmt]
      · cases hp : prfTest false block PFlags.closed with
        | err e pf' =>
          simp only [blockStep, blockStepPrfFirst, thmTest, hmt, hp,
            Bool.false_eq_true, if_false]
        | ok r pf' =>
          cases r <;>
            simp only [blockStep, blockStepPrfFirst, thmTest, hmt, hp,
              Bool.false_eq_true, if_false]
    | some kw =>
      have hsw : startsWithL (toLowerL block) "proof:".toList = false :=
        proofStart_false_of_match hmt
      have hprf : prfTest false block PFlags.closed = .ok false PFlags.closed := by
        rw [prfTest, if_neg (by simp), if_neg (by rw [hsw]; simp), prfTestEnd,
          if_neg (by rw [hew]; simp)]
        rfl
      constructor
      · intro hcon
        rw [prfAccepts, hprf] at hcon
        exact absurd hcon.2 (by simp)
      · cases hr : thmRun kw block l c with
        | err e p =>
          obtain ⟨l', c'⟩ := p
          simp only [blockStep, blockStepPrfFirst, thmTest, hmt, hprf, hr,
            Bool.false_eq_true, if_false]
        | ok el p =>
          obtain ⟨l', c'⟩ := p
          simp only [blockStep, blockStepPrfFirst, thmTest, hmt, hprf, hr,
            Bool.false_eq_true, if_false]

/-- Witness for c3_amended at a concrete closed state and plain
block. -/
theorem c3_amended_witness :
    (initSt.pf = PFlags.closed ∧ endsWithL "hello.".toList ['[', ']'] = false) ∧
    (¬ ((thmTest false "hello.".toList).isSome = true ∧
        prfAccepts "hello.".toList initSt.pf = true) ∧
      blockStep false "hello.".toList [] initSt =
        blockStepPrfFirst false "hello.".toList [] initSt) :=
  ⟨⟨rfl, by decide⟩, c3_amended false "hello.".toList [] initSt rfl (by decide)⟩

/-- C8: the proof span state machine keeps its between-blocks
invariant — starting from the initial all-false state, the flags
observed after any successfully processed block (and hence between
blocks throughout a document) are either fully closed or in-progress
only; the run transition closes everything after an end-flagged block
and moves a start-only block to in-progress with the start flag
reset. -/
theorem c8_proof_state_machine :
    ReachInv initSt.pf ∧
    (∀ (il : Bool) (block : List Char) (sibs sibs' : List Elem) (st st' : ConvSt),
      ReachInv st.pf → blockStep il block sibs st = .ok sibs' st' → ReachInv st'.pf) ∧
    (∀ (block : List Char) (s : PFlags) (sibs : List Elem),
      s.endP = true → (prfRun block s sibs).2 = PFlags.closed) ∧
    (∀ (block : List Char) (s : PFlags) (sibs : List Elem),
      s.endP = false → s.startP = true → (prfRun block s sibs).2 = ⟨false, true, false⟩) ∧
    (∀ (doc : Doc) (sibs sibs' : List Elem) (st st' : ConvSt),
      ReachInv st.pf → phase1 doc sibs st = .ok sibs' st' → ReachInv st'.pf) := by
  have key : ∀ (il : Bool) (block : List Char) (sibs sibs' : List Elem) (st st' : ConvSt),
      ReachInv st.pf → blockStep il block sibs st = .ok sibs' st' → ReachInv st'.pf := by
    intro il block sibs sibs' st st' hinv h
    cases il with
    | true =>
      have hb : blockStep true block sibs st = .ok (sibs ++ [plainPara block]) st := rfl
      rw [hb] at h
      injection h with h1 h2
      rw [← h2]
      exact hinv
    | false =>
      cases hmt : thmTest false block with
      | some kw =>
        cases hr : thmRun kw block st.labels st.counter with
        | err e p =>
          obtain ⟨l', c'⟩ := p
          simp only [blockStep, hmt, hr] at h
          cases h
        | ok el p =>
          obtain ⟨l', c'⟩ := p
          simp only [blockStep, hmt, hr] at h
          injection h with h1 h2
          rw [← h2]
          exact hinv
      | none =>
        cases hp : prfTest false block st.pf with
        | err e pf' =>
          simp only [blockStep, hmt, hp] at h
          cases h
        | ok r pf' =>
          have hok := prfTest_ok_inv hinv hp
          cases r with
          | false =>
            simp only [blockStep, hmt, hp] at h
            injection h with h1 h2
            rw [← h2]
            have hpf := hok.1 rfl
            show ReachInv ({ st with pf := pf' } : ConvSt).pf
            rw [show ({ st with pf := pf' } : ConvSt).pf = pf' from rfl, hpf]
            exact hinv
          | true =>
            simp only [blockStep, hmt, hp, prfRun] at h
            injection h with h1 h2
            rw [← h2]
            exact hok.2
  refine ⟨Or.inl rfl, key, ?_, ?_, ?_⟩
  · intro block s sibs he
    show prfTransition s = PFlags.closed
    simp [prfTransition, he]
  · intro block s sibs he hs
    show prfTransition s = (⟨false, true, false⟩ : PFlags)
    simp [prfTransition, he, hs]
  · intro doc
    induction doc with
    | nil =>
      intro sibs sibs' st st' hinv h
      rw [phase1] at h
      injection h with h1 h2
      rw [← h2]
      exact hinv
    | cons b rest ih =>
      obtain ⟨il, blk⟩ := b
      intro sibs sibs' st st' hinv h
      rw [phase1] at h
      cases hb : blockStep il blk sibs st with
      | err e st1 => rw [hb] at h; cases h
      | ok sibs1 st1 =>
        rw [hb] at h
        exact ih sibs1 sibs' st1 st' (key il blk sibs sibs1 st st1 hinv hb) h

/-- Witness for c8_proof_state_machine: the preservation part applied
to a concrete accepted block from the initial state. -/
theorem c8_proof_state_machine_witness :
    (ReachInv initSt.pf ∧
      blockStep false "Proof: A.".toList [] initSt = .ok openSibs openSt) ∧
    ReachInv openSt.pf :=
  ⟨⟨Or.inl rfl, by rfl⟩,
    c8_proof_state_machine.2.1 false "Proof: A.".toList [] openSibs initSt openSt
      (Or.inl rfl) (by rfl)⟩

end LatexMd
